import Mathlib

/-!
FuzzySubstring: a shallow embedding of `src/src/FuzzySubstring.js` (class `FuzzySubstring`, methods
`getEditDistances` and `getMatches`) and theorems about it.

Strings are lists over an alphabet `α` with decidable equality (for JavaScript: the
UTF-16 code units of the string).  JavaScript numbers holding distances, offsets and
positions are integers and are modelled by `Int`; loop counters are `Nat`.  An indexed
read `a[k]` is modelled by `a[k]?` in the `Option` monad: reading outside the array makes
the whole call return `none` (in JavaScript the following `[0]` throws).
-/

set_option linter.unusedSectionVars false

namespace FuzzySubstring

/-- A pair `[distance, offset]` as stored in the rows of `getEditDistances`. -/
abbrev Cell := Int × Int

/-- The object `{distance, start, end}` pushed by `getMatches` (field `stop` is the
source's `end`). -/
structure Match where
  distance : Int
  start : Int
  stop : Int
deriving DecidableEq, Repr

variable {α : Type} [DecidableEq α]

/-- Body of the inner loop of `getEditDistances` for needle character `x` (= `needle[i]`),
column `j`, previous row `row1` and the partially built row `row2`; returns `row2` after
`row2.push(result)`. -/
def innerBody (x : α) (haystack : List α) (row1 : List Cell) (row2 : List Cell) (j : Nat) :
    Option (List Cell) := do
  let y ← haystack[j]?
  let cost : Int := if x ≠ y then 1 else 0
  let r1j1 ← row1[j + 1]?
  let r2j ← row2[j]?
  let r1j ← row1[j]?
  let del := r1j1.1 + 1
  let ins := r2j.1 + 1
  let sub := r1j.1 + cost
  let mn := min del (min ins sub)
  let result : Cell :=
    if del = mn then (mn, r1j1.2 - 1)
    else if ins = mn then (mn, r2j.2 + 1)
    else (mn, r1j.2)
  pure (row2 ++ [result])

/-- Body of the outer loop of `getEditDistances`: builds `row2` from `row1` for needle
index `i`; the returned row is the new `row1`. -/
def outerBody (needle haystack : List α) (row1 : List Cell) (i : Nat) : Option (List Cell) := do
  let x ← needle[i]?
  (List.range haystack.length).foldlM (innerBody x haystack row1) [(((i : Int) + 1), (0 : Int))]

/-- The method `getEditDistances(needle, haystack)`. -/
def getEditDistances (needle haystack : List α) : Option (List Cell) :=
  (List.range needle.length).foldlM (outerBody needle haystack)
    (List.replicate (haystack.length + 1) ((0 : Int), (0 : Int)))

/-- Body of the first loop of `getMatches`; the state is `(indices, min)`. -/
def scanBody (matches_ : List Cell) (st : List Nat × Int) (i : Nat) : Option (List Nat × Int) := do
  let c ← matches_[i]?
  let value := c.1
  if value < st.2 then pure ([i], value)
  else if value = st.2 then pure (st.1 ++ [i], st.2)
  else pure st

/-- Body of the second loop of `getMatches`: the record built for index `i`. -/
def compileBody (needleLength : Nat) (matches_ : List Cell) (i : Nat) : Option Match := do
  let c ← matches_[i]?
  pure { distance := c.1, start := (i : Int) - (needleLength : Int) - c.2, stop := (i : Int) }

/-- The method `getMatches(needle, haystack)`. -/
def getMatches (needle haystack : List α) : Option (List Match) := do
  let matches_ ← getEditDistances needle haystack
  let c0 ← matches_[0]?
  let st ← (List.range' 1 (matches_.length - 1)).foldlM (scanBody matches_) ([0], c0.1)
  st.1.mapM (compileBody needle.length matches_)

/-- The haystack substring from index `s` (inclusive) to index `e` (exclusive), as
`haystack.substring(s, e)` for `s ≤ e`. -/
def substr (haystack : List α) (s e : Nat) : List α := (haystack.take e).drop s

/-- Levenshtein distance with unit costs (Mathlib's `levenshtein` with the default cost). -/
def lev (xs ys : List α) : Nat := levenshtein Levenshtein.defaultCost xs ys

/-! ## A closed form of the rows

`rowFn needle haystack i j` is the cell at column `j` of the row obtained after `i` outer
iterations; the loops of `getEditDistances` are shown to compute exactly these cells. -/

/-- The cell `result` computed by one inner iteration from `cost` and the three
neighbouring cells `row1[j]`, `row1[j+1]`, `row2[j]`. -/
def cellOf (cost : Int) (r1j r1j1 r2j : Cell) : Cell :=
  if r1j1.1 + 1 = min (r1j1.1 + 1) (min (r2j.1 + 1) (r1j.1 + cost)) then
    (min (r1j1.1 + 1) (min (r2j.1 + 1) (r1j.1 + cost)), r1j1.2 - 1)
  else if r2j.1 + 1 = min (r1j1.1 + 1) (min (r2j.1 + 1) (r1j.1 + cost)) then
    (min (r1j1.1 + 1) (min (r2j.1 + 1) (r1j.1 + cost)), r2j.2 + 1)
  else (min (r1j1.1 + 1) (min (r2j.1 + 1) (r1j.1 + cost)), r1j.2)

/-- The value of `cost` for needle index `i` and haystack index `j`. -/
def costAt (needle haystack : List α) (i j : Nat) : Int :=
  if needle[i]? ≠ haystack[j]? then 1 else 0

/-- Row `i + 1` as a function of the column, from row `i`. -/
def nextRowFn (cost : Nat → Int) (i : Nat) (prev : Nat → Cell) : Nat → Cell
  | 0 => (((i : Int) + 1), 0)
  | j + 1 => cellOf (cost j) (prev j) (prev (j + 1)) (nextRowFn cost i prev j)

/-- Row `i` as a function of the column. -/
def rowFn (needle haystack : List α) : Nat → Nat → Cell
  | 0 => fun _ => (0, 0)
  | i + 1 => nextRowFn (costAt needle haystack i) i (rowFn needle haystack i)

/-- The smallest of `d 0, …, d k`. -/
def minUpTo (d : Nat → Int) : Nat → Int
  | 0 => d 0
  | k + 1 => min (minUpTo d k) (d (k + 1))

/-- The indices `i ≤ n` at which `d` attains its minimum over `0..n`, in ascending order. -/
def minIndices (d : Nat → Int) (n : Nat) : List Nat :=
  (List.range (n + 1)).filter (fun i => decide (d i = minUpTo d n))

/-- The record `getMatches` builds for end position `i`. -/
def matchAt (needle haystack : List α) (i : Nat) : Match :=
  { distance := (rowFn needle haystack needle.length i).1
    start := (i : Int) - (needle.length : Int) - (rowFn needle haystack needle.length i).2
    stop := (i : Int) }

/-! ## Variants of the tie-break

The source decides which operation "won" by testing deletion first, then insertion, and
otherwise takes substitution.  The definitions below are the same program with that
priority order as a parameter; they are used to state how the results depend on it. -/

/-- The three operations whose costs an inner iteration compares. -/
inductive Op where
  | del
  | ins
  | sub
deriving DecidableEq, Repr

/-- The cost among `del`, `ins`, `sub` that belongs to an operation. -/
def opCost (o : Op) (del ins sub : Int) : Int :=
  match o with
  | Op.del => del
  | Op.ins => ins
  | Op.sub => sub

/-- The operation that wins under the priority order `prio`: the first one in `prio`
whose cost equals `mn`; substitution when none does. -/
def pickOp (prio : List Op) (del ins sub mn : Int) : Op :=
  match prio with
  | [] => Op.sub
  | o :: rest => if opCost o del ins sub = mn then o else pickOp rest del ins sub mn

/-- The offset a cell takes when operation `o` won. -/
def opOffset (o : Op) (r1j r1j1 r2j : Cell) : Int :=
  match o with
  | Op.del => r1j1.2 - 1
  | Op.ins => r2j.2 + 1
  | Op.sub => r1j.2

/-- The priority order of the source: deletion, then insertion, then substitution. -/
def sourcePrio : List Op := [Op.del, Op.ins, Op.sub]

/-- The inner loop body of `getEditDistances` with the tie-break order `prio`. -/
def innerBodyWith (prio : List Op) (x : α) (haystack : List α) (row1 : List Cell)
    (row2 : List Cell) (j : Nat) : Option (List Cell) := do
  let y ← haystack[j]?
  let cost : Int := if x ≠ y then 1 else 0
  let r1j1 ← row1[j + 1]?
  let r2j ← row2[j]?
  let r1j ← row1[j]?
  let del := r1j1.1 + 1
  let ins := r2j.1 + 1
  let sub := r1j.1 + cost
  let mn := min del (min ins sub)
  let result : Cell := (mn, opOffset (pickOp prio del ins sub mn) r1j r1j1 r2j)
  pure (row2 ++ [result])

/-- The outer loop body of `getEditDistances` with the tie-break order `prio`. -/
def outerBodyWith (prio : List Op) (needle haystack : List α) (row1 : List Cell) (i : Nat) :
    Option (List Cell) := do
  let x ← needle[i]?
  (List.range haystack.length).foldlM (innerBodyWith prio x haystack row1)
    [(((i : Int) + 1), (0 : Int))]

/-- The variant of `getEditDistances` with the tie-break order `prio`. -/
def getEditDistancesWith (prio : List Op) (needle haystack : List α) : Option (List Cell) :=
  (List.range needle.length).foldlM (outerBodyWith prio needle haystack)
    (List.replicate (haystack.length + 1) ((0 : Int), (0 : Int)))

/-- The method `getMatches` run on the variant `getEditDistancesWith prio`. -/
def getMatchesWith (prio : List Op) (needle haystack : List α) : Option (List Match) := do
  let matches_ ← getEditDistancesWith prio needle haystack
  let c0 ← matches_[0]?
  let st ← (List.range' 1 (matches_.length - 1)).foldlM (scanBody matches_) ([0], c0.1)
  st.1.mapM (compileBody needle.length matches_)

/-- The cell computed by one inner iteration of the variant. -/
def cellOfWith (prio : List Op) (cost : Int) (r1j r1j1 r2j : Cell) : Cell :=
  (min (r1j1.1 + 1) (min (r2j.1 + 1) (r1j.1 + cost)),
    opOffset (pickOp prio (r1j1.1 + 1) (r2j.1 + 1) (r1j.1 + cost)
      (min (r1j1.1 + 1) (min (r2j.1 + 1) (r1j.1 + cost)))) r1j r1j1 r2j)

/-- Row `i + 1` of the variant as a function of the column, from row `i`. -/
def nextRowFnWith (prio : List Op) (cost : Nat → Int) (i : Nat) (prev : Nat → Cell) :
    Nat → Cell
  | 0 => (((i : Int) + 1), 0)
  | j + 1 => cellOfWith prio (cost j) (prev j) (prev (j + 1)) (nextRowFnWith prio cost i prev j)

/-- Row `i` of the variant as a function of the column. -/
def rowFnWith (prio : List Op) (needle haystack : List α) : Nat → Nat → Cell
  | 0 => fun _ => (0, 0)
  | i + 1 => nextRowFnWith prio (costAt needle haystack i) i (rowFnWith prio needle haystack i)


/-! ## The loops compute the closed form -/

theorem innerBody_eq (x : α) (haystack : List α) (row1 row2 : List Cell) (j : Nat) (y : α)
    (a b c : Cell) (hy : haystack[j]? = some y) (ha : row1[j]? = some a)
    (hb : row1[j + 1]? = some b) (hc : row2[j]? = some c) :
    innerBody x haystack row1 row2 j
      = some (row2 ++ [cellOf (if x ≠ y then 1 else 0) a b c]) := by
  simp only [innerBody, hy, ha, hb, hc, Option.bind_eq_bind, Option.some_bind, cellOf,
    Option.pure_def]

theorem map_range_getElem? {β : Type} (f : Nat → β) (n j : Nat) (h : j < n) :
    ((List.range n).map f)[j]? = some (f j) := by
  simp [List.getElem?_map, List.getElem?_range h]

theorem inner_loop (needle haystack : List α) (i : Nat) (x : α) (hx : needle[i]? = some x)
    (prev : Nat → Cell) (row1 : List Cell)
    (hrow : ∀ j, j ≤ haystack.length → row1[j]? = some (prev j))
    (k : Nat) (hk : k ≤ haystack.length) :
    (List.range k).foldlM (innerBody x haystack row1) [(((i : Int) + 1), (0 : Int))]
      = some ((List.range (k + 1)).map (nextRowFn (costAt needle haystack i) i prev)) := by
  induction k with
  | zero => rfl
  | succ k ih =>
    have hk2 : k < haystack.length := hk
    have hr : List.range (k + 1) = List.range k ++ [k] := List.range_succ _
    have hr2 : List.range (k + 1 + 1) = List.range (k + 1) ++ [k + 1] := List.range_succ _
    rw [hr, List.foldlM_append, ih (Nat.le_of_lt hk2)]
    simp only [Option.bind_eq_bind, Option.some_bind, List.foldlM_cons, List.foldlM_nil]
    have hy : haystack[k]? = some haystack[k] := List.getElem?_eq_getElem hk2
    rw [innerBody_eq x haystack _ _ k haystack[k] (prev k) (prev (k + 1))
      (nextRowFn (costAt needle haystack i) i prev k) hy
      (hrow k (by omega)) (hrow (k + 1) (by omega)) (map_range_getElem? _ _ _ (by omega))]
    simp only [Option.some_bind, Option.pure_def]
    rw [hr2, List.map_append]
    simp only [List.map_cons, List.map_nil, nextRowFn, costAt, hx, hy]
    simp

theorem outer_loop (needle haystack : List α) (k : Nat) (hk : k ≤ needle.length) :
    (List.range k).foldlM (outerBody needle haystack)
        (List.replicate (haystack.length + 1) ((0 : Int), (0 : Int)))
      = some ((List.range (haystack.length + 1)).map (rowFn needle haystack k)) := by
  induction k with
  | zero =>
    simp only [List.range_zero, List.foldlM_nil, Option.pure_def, rowFn]
    congr 1
    apply List.ext_getElem <;> simp
  | succ k ih =>
    have hk2 : k < needle.length := hk
    have hr : List.range (k + 1) = List.range k ++ [k] := List.range_succ _
    rw [hr, List.foldlM_append, ih (Nat.le_of_lt hk2)]
    simp only [Option.bind_eq_bind, Option.some_bind, List.foldlM_cons, List.foldlM_nil]
    have hx : needle[k]? = some needle[k] := List.getElem?_eq_getElem hk2
    simp only [outerBody, hx, Option.bind_eq_bind, Option.some_bind]
    rw [inner_loop needle haystack k needle[k] hx (rowFn needle haystack k) _
      (fun j hj => map_range_getElem? _ _ _ (by omega)) haystack.length (Nat.le_refl _)]
    simp [rowFn]

/-- The row returned by `getEditDistances`, in closed form. -/
theorem getEditDistances_eq (needle haystack : List α) :
    getEditDistances needle haystack
      = some ((List.range (haystack.length + 1)).map (rowFn needle haystack needle.length)) :=
  outer_loop needle haystack needle.length (Nat.le_refl _)

theorem minUpTo_le (d : Nat → Int) (k : Nat) : ∀ i, i ≤ k → minUpTo d k ≤ d i := by
  induction k with
  | zero => intro i hi; have : i = 0 := by omega
            subst this; exact le_refl _
  | succ k ih =>
    intro i hi
    simp only [minUpTo]
    rcases Nat.lt_or_ge i (k + 1) with h | h
    · exact le_trans (min_le_left _ _) (ih i (by omega))
    · have : i = k + 1 := by omega
      subst this; exact min_le_right _ _

theorem minUpTo_attained (d : Nat → Int) (k : Nat) : ∃ i, i ≤ k ∧ d i = minUpTo d k := by
  induction k with
  | zero => exact ⟨0, le_refl _, rfl⟩
  | succ k ih =>
    obtain ⟨i, hi, he⟩ := ih
    simp only [minUpTo]
    rcases le_total (minUpTo d k) (d (k + 1)) with h | h
    · exact ⟨i, by omega, by rw [min_eq_left h]; exact he⟩
    · exact ⟨k + 1, le_refl _, by rw [min_eq_right h]⟩

theorem minIndices_succ (d : Nat → Int) (k : Nat) :
    minIndices d (k + 1)
      = if d (k + 1) < minUpTo d k then [k + 1]
        else if d (k + 1) = minUpTo d k then minIndices d k ++ [k + 1]
        else minIndices d k := by
  have hr : List.range (k + 1 + 1) = List.range (k + 1) ++ [k + 1] := List.range_succ _
  unfold minIndices
  rw [hr, List.filter_append]
  simp only [minUpTo]
  split_ifs with h1 h2
  · simp only [min_eq_right (le_of_lt h1)]
    have : (List.range (k + 1)).filter (fun i => decide (d i = d (k + 1))) = [] := by
      rw [List.filter_eq_nil_iff]
      intro i hi
      have := minUpTo_le d k i (by have := List.mem_range.mp hi; omega)
      simp only [decide_eq_true_eq]
      omega
    rw [this]
    simp
  · simp only [h2, min_self]
    simp [← h2]
  · have h3 : minUpTo d k < d (k + 1) := by omega
    simp only [min_eq_left (le_of_lt h3)]
    simp [List.filter_cons, ne_of_gt h3]

theorem scan_loop (row : List Cell) (d : Nat → Int) (n : Nat)
    (hrow : ∀ i, i ≤ n → ∃ c, row[i]? = some c ∧ c.1 = d i) (k : Nat) (hk : k ≤ n) :
    (List.range' 1 k).foldlM (scanBody row) ([0], d 0)
      = some (minIndices d k, minUpTo d k) := by
  induction k with
  | zero => simp [minIndices, minUpTo, List.range_succ, List.filter_cons]
  | succ k ih =>
    rw [List.range'_1_concat, List.foldlM_append, ih (by omega)]
    obtain ⟨c, hc, hd⟩ := hrow (1 + k) (by omega)
    simp only [Option.bind_eq_bind, Option.some_bind, List.foldlM_cons, List.foldlM_nil,
      scanBody, hc, hd, Option.pure_def]
    rw [minIndices_succ, minUpTo, Nat.add_comm 1 k]
    split_ifs with h1 h2
    · rw [min_eq_right (le_of_lt h1)]; rfl
    · rw [h2, min_self]; rfl
    · rw [min_eq_left (by omega)]; rfl

theorem mapM_some {β γ : Type} (f : β → Option γ) (g : β → γ) (l : List β)
    (h : ∀ b, b ∈ l → f b = some (g b)) : l.mapM f = some (l.map g) := by
  induction l with
  | nil => rfl
  | cons b l ih =>
    rw [List.mapM_cons, h b (List.mem_cons_self _ _), ih (fun b hb => h b (List.mem_cons_of_mem _ hb))]
    rfl

theorem mem_minIndices {d : Nat → Int} {n i : Nat} :
    i ∈ minIndices d n ↔ i ≤ n ∧ d i = minUpTo d n := by
  simp [minIndices, List.mem_filter, Nat.lt_succ_iff]

/-- The result of `getMatches`, in closed form: one record per column at which the final
row attains its minimal distance, in ascending column order. -/
theorem getMatches_eq (needle haystack : List α) :
    getMatches needle haystack
      = some ((minIndices (fun i => (rowFn needle haystack needle.length i).1)
          haystack.length).map (matchAt needle haystack)) := by
  have hrow : ∀ i, i ≤ haystack.length →
      ((List.range (haystack.length + 1)).map (rowFn needle haystack needle.length))[i]?
        = some (rowFn needle haystack needle.length i) :=
    fun i hi => map_range_getElem? _ _ _ (by omega)
  simp only [getMatches, getEditDistances_eq, Option.bind_eq_bind, Option.some_bind,
    hrow 0 (Nat.zero_le _), List.length_map, List.length_range, Nat.add_sub_cancel]
  rw [scan_loop _ (fun i => (rowFn needle haystack needle.length i).1) haystack.length
    (fun i hi => ⟨_, hrow i hi, rfl⟩) haystack.length (Nat.le_refl _)]
  simp only [Option.some_bind]
  apply mapM_some
  intro i hi
  have hi2 := (mem_minIndices.mp hi).1
  simp only [compileBody, hrow i hi2, Option.bind_eq_bind, Option.some_bind, matchAt,
    Option.pure_def]

/-! ## Levenshtein distance: recurrences on the last characters -/

theorem lev_nil_left (ys : List α) : lev ([] : List α) ys = ys.length := by
  induction ys with
  | nil => simp [lev]
  | cons y ys ih =>
    simp only [lev] at ih
    simp only [lev, levenshtein_nil_cons, Levenshtein.defaultCost_insert, ih, List.length_cons]
    omega

theorem lev_nil_right (xs : List α) : lev xs ([] : List α) = xs.length := by
  induction xs with
  | nil => simp [lev]
  | cons x xs ih =>
    simp only [lev] at ih
    simp only [lev, levenshtein_cons_nil, Levenshtein.defaultCost_delete, ih, List.length_cons]
    omega

theorem lev_cons_cons (x : α) (xs : List α) (y : α) (ys : List α) :
    lev (x :: xs) (y :: ys)
      = min (lev xs (y :: ys) + 1)
          (min (lev (x :: xs) ys + 1) (lev xs ys + if x = y then 0 else 1)) := by
  simp only [lev, levenshtein_cons_cons, Levenshtein.defaultCost_delete,
    Levenshtein.defaultCost_insert, Levenshtein.defaultCost_substitute]
  omega

theorem min_nine (p q r s t u v w z c c' : Nat) :
    min (min (p + 1) (min (q + 1) (r + c')) + 1)
        (min (min (s + 1) (min (t + 1) (u + c')) + 1) (min (v + 1) (min (w + 1) (z + c')) + c))
      = min (min (p + 1) (min (s + 1) (v + c)) + 1)
          (min (min (q + 1) (min (t + 1) (w + c)) + 1)
            (min (r + 1) (min (u + 1) (z + c)) + c')) := by
  simp only [← min_add_add_right]
  simp only [add_assoc, add_comm, add_left_comm, min_assoc, min_comm, min_left_comm]

/-- The Levenshtein recurrence on the last characters of both strings. -/
theorem lev_snoc_snoc (xs : List α) (x : α) (ys : List α) (y : α) :
    lev (xs ++ [x]) (ys ++ [y])
      = min (lev xs (ys ++ [y]) + 1)
          (min (lev (xs ++ [x]) ys + 1) (lev xs ys + if x = y then 0 else 1)) := by
  induction xs generalizing ys with
  | nil =>
    induction ys with
    | nil =>
      simp only [List.nil_append, lev_cons_cons, lev_nil_left, lev_nil_right]
    | cons b ys ihy =>
      simp only [List.nil_append] at ihy
      simp only [List.nil_append, List.cons_append, lev_cons_cons, lev_nil_left, ihy,
        List.length_cons, List.length_append, List.length_nil]
      split_ifs <;> omega
  | cons a xs ihx =>
    induction ys with
    | nil =>
      have h1 := ihx []
      simp only [List.nil_append] at h1
      simp only [List.nil_append, List.cons_append, lev_cons_cons, lev_nil_right, h1,
        List.length_cons, List.length_append, List.length_nil]
      split_ifs <;> omega
    | cons b ys ihy =>
      have h1 := ihx (b :: ys)
      have h2 := ihx ys
      simp only [List.cons_append] at h1 h2 ihy
      simp only [List.cons_append, lev_cons_cons, h1, h2, ihy]
      exact min_nine _ _ _ _ _ _ _ _ _ _ _

theorem lev_snoc_left_le (xs : List α) (x : α) (ys : List α) :
    lev (xs ++ [x]) ys ≤ lev xs ys + 1 := by
  rcases List.eq_nil_or_concat ys with h | ⟨ys', y, h⟩
  · subst h
    simp [lev_nil_right]
  · subst h
    rw [List.concat_eq_append, lev_snoc_snoc]
    exact min_le_left _ _

theorem lev_snoc_right_le (xs : List α) (ys : List α) (y : α) :
    lev xs (ys ++ [y]) ≤ lev xs ys + 1 := by
  rcases List.eq_nil_or_concat xs with h | ⟨xs', x, h⟩
  · subst h
    simp [lev_nil_left]
  · subst h
    rw [List.concat_eq_append, lev_snoc_snoc]
    exact le_trans (min_le_right _ _) (min_le_left _ _)

/-! ## Substrings and prefixes -/

theorem substr_self (haystack : List α) (s : Nat) : substr haystack s s = [] := by
  simp [substr, List.drop_eq_nil_iff, List.length_take]

theorem substr_succ (haystack : List α) (s j : Nat) (hs : s ≤ j) (hj : j < haystack.length) :
    substr haystack s (j + 1) = substr haystack s j ++ [haystack[j]] := by
  unfold substr
  rw [List.take_succ, List.getElem?_eq_getElem hj, Option.toList_some,
    List.drop_append_of_le_length (by rw [List.length_take]; omega)]

theorem take_succ_getElem (needle : List α) (i : Nat) (hi : i < needle.length) :
    needle.take (i + 1) = needle.take i ++ [needle[i]] := by
  rw [List.take_succ, List.getElem?_eq_getElem hi, Option.toList_some]

theorem costAt_eq (needle haystack : List α) (i j : Nat) (hi : i < needle.length)
    (hj : j < haystack.length) :
    costAt needle haystack i j = if needle[i] = haystack[j] then 0 else 1 := by
  simp only [costAt, List.getElem?_eq_getElem hi, List.getElem?_eq_getElem hj, ne_eq,
    Option.some.injEq]
  split_ifs <;> rfl

/-! ## Facts about one cell -/

theorem rowFn_zero (needle haystack : List α) (j : Nat) :
    rowFn needle haystack 0 j = (0, 0) := rfl

theorem rowFn_succ_zero (needle haystack : List α) (i : Nat) :
    rowFn needle haystack (i + 1) 0 = (((i : Int) + 1), 0) := rfl

theorem rowFn_succ_succ (needle haystack : List α) (i j : Nat) :
    rowFn needle haystack (i + 1) (j + 1)
      = cellOf (costAt needle haystack i j) (rowFn needle haystack i j)
          (rowFn needle haystack i (j + 1)) (rowFn needle haystack (i + 1) j) := rfl

theorem cellOf_fst (cost : Int) (a b e : Cell) :
    (cellOf cost a b e).1 = min (b.1 + 1) (min (e.1 + 1) (a.1 + cost)) := by
  unfold cellOf
  split_ifs <;> rfl

theorem cellOf_cases (cost : Int) (a b e : Cell) :
    ((cellOf cost a b e).1 = b.1 + 1 ∧ (cellOf cost a b e).2 = b.2 - 1) ∨
    ((cellOf cost a b e).1 = e.1 + 1 ∧ (cellOf cost a b e).2 = e.2 + 1) ∨
    ((cellOf cost a b e).1 = a.1 + cost ∧ (cellOf cost a b e).2 = a.2) := by
  unfold cellOf
  split_ifs with h1 h2
  · left; exact ⟨h1.symm, rfl⟩
  · right; left; exact ⟨h2.symm, rfl⟩
  · right; right
    refine ⟨?_, rfl⟩
    show min _ (min _ _) = _
    omega

/-! ## The rows and the Levenshtein distance -/

/-- Every cell is at most the Levenshtein distance between the needle prefix and any
haystack substring ending at the cell's column. -/
theorem rowFn_le_lev (needle haystack : List α) (i : Nat) (hi : i ≤ needle.length) :
    ∀ j, j ≤ haystack.length → ∀ s, s ≤ j →
      (rowFn needle haystack i j).1 ≤ (lev (needle.take i) (substr haystack s j) : Int) := by
  induction i with
  | zero =>
    intro j _ s _
    rw [rowFn_zero]
    exact Int.natCast_nonneg _
  | succ i ihi =>
    have hi2 : i < needle.length := hi
    intro j
    induction j with
    | zero =>
      intro _ s hs
      have : s = 0 := by omega
      subst this
      rw [rowFn_succ_zero, substr_self, lev_nil_right, List.length_take]
      simp only []
      omega
    | succ j ihj =>
      intro hj s hs
      have hj2 : j < haystack.length := hj
      rw [rowFn_succ_succ, cellOf_fst]
      rcases Nat.lt_or_ge s (j + 1) with h | h
      · have hs2 : s ≤ j := by omega
        rw [substr_succ haystack s j hs2 hj2, take_succ_getElem needle i hi2, lev_snoc_snoc,
          ← substr_succ haystack s j hs2 hj2, ← take_succ_getElem needle i hi2,
          costAt_eq needle haystack i j hi2 hj2]
        have h1 := ihi (by omega) (j + 1) hj s hs
        have h2 := ihj (by omega) s hs2
        have h3 := ihi (by omega) j (by omega) s hs2
        push_cast
        split_ifs <;> omega
      · have : s = j + 1 := by omega
        subst this
        have h1 := ihi (by omega) (j + 1) hj (j + 1) (le_refl _)
        rw [substr_self, lev_nil_right, List.length_take] at h1 ⊢
        omega

/-- The start position encoded by a cell's offset names a haystack substring, ending at the
cell's column, whose Levenshtein distance to the needle prefix is at most the cell's
distance. -/
theorem rowFn_start (needle haystack : List α) (i : Nat) (hi : i ≤ needle.length) :
    ∀ j, j ≤ haystack.length →
      -(i : Int) ≤ (rowFn needle haystack i j).2 ∧
      (lev (needle.take i)
          (substr haystack ((j : Int) - (i : Int) - (rowFn needle haystack i j).2).toNat j) : Int)
        ≤ (rowFn needle haystack i j).1 := by
  induction i with
  | zero =>
    intro j _
    rw [rowFn_zero]
    have : ((j : Int) - ((0 : Nat) : Int) - ((0 : Int), (0 : Int)).2).toNat = j := by
      simp
    rw [this, substr_self]
    simp [lev_nil_left]
  | succ i ihi =>
    have hi2 : i < needle.length := hi
    intro j
    induction j with
    | zero =>
      intro _
      rw [rowFn_succ_zero]
      have : (((0 : Nat) : Int) - ((i + 1 : Nat) : Int) - ((i : Int) + 1, (0 : Int)).2).toNat = 0 := by
        simp only []
        omega
      rw [this, substr_self, lev_nil_right, List.length_take]
      simp only []
      omega
    | succ j ihj =>
      intro hj
      have hj2 : j < haystack.length := hj
      rw [rowFn_succ_succ]
      obtain ⟨hA1, hA2⟩ := ihi (by omega) j (by omega)
      obtain ⟨hB1, hB2⟩ := ihi (by omega) (j + 1) hj
      obtain ⟨hE1, hE2⟩ := ihj (by omega)
      rcases cellOf_cases (costAt needle haystack i j) (rowFn needle haystack i j)
        (rowFn needle haystack i (j + 1)) (rowFn needle haystack (i + 1) j)
        with ⟨h1, h2⟩ | ⟨h1, h2⟩ | ⟨h1, h2⟩
      · rw [h1, h2]
        refine ⟨by omega, ?_⟩
        have e : ((j + 1 : Nat) : Int) - ((i + 1 : Nat) : Int)
            - ((rowFn needle haystack i (j + 1)).2 - 1)
            = ((j + 1 : Nat) : Int) - (i : Int) - (rowFn needle haystack i (j + 1)).2 := by
          omega
        rw [e, take_succ_getElem needle i hi2]
        have := lev_snoc_left_le (needle.take i) needle[i]
          (substr haystack
            (((j + 1 : Nat) : Int) - (i : Int) - (rowFn needle haystack i (j + 1)).2).toNat (j + 1))
        omega
      · rw [h1, h2]
        refine ⟨by omega, ?_⟩
        have e : ((j + 1 : Nat) : Int) - ((i + 1 : Nat) : Int)
            - ((rowFn needle haystack (i + 1) j).2 + 1)
            = (j : Int) - ((i + 1 : Nat) : Int) - (rowFn needle haystack (i + 1) j).2 := by
          omega
        rw [e, substr_succ haystack _ j (by omega) hj2]
        have := lev_snoc_right_le (needle.take (i + 1))
          (substr haystack
            ((j : Int) - ((i + 1 : Nat) : Int) - (rowFn needle haystack (i + 1) j).2).toNat j)
          haystack[j]
        omega
      · rw [h1, h2]
        refine ⟨by omega, ?_⟩
        have e : ((j + 1 : Nat) : Int) - ((i + 1 : Nat) : Int) - (rowFn needle haystack i j).2
            = (j : Int) - (i : Int) - (rowFn needle haystack i j).2 := by
          omega
        rw [e, substr_succ haystack _ j (by omega) hj2, take_succ_getElem needle i hi2,
          lev_snoc_snoc, costAt_eq needle haystack i j hi2 hj2]
        push_cast
        split_ifs <;> omega

/-- The final row: the start position encoded by cell `j` is at most `j`, and the cell's
distance is exactly the Levenshtein distance between the needle and the haystack substring
from that start position to `j`. -/
theorem rowFn_eq_lev (needle haystack : List α) (j : Nat) (hj : j ≤ haystack.length) :
    ((j : Int) - (needle.length : Int) - (rowFn needle haystack needle.length j).2).toNat ≤ j ∧
    (rowFn needle haystack needle.length j).1
      = (lev needle (substr haystack
          ((j : Int) - (needle.length : Int) - (rowFn needle haystack needle.length j).2).toNat
          j) : Int) := by
  obtain ⟨h1, h2⟩ := rowFn_start needle haystack needle.length (le_refl _) j hj
  have hle : ((j : Int) - (needle.length : Int)
      - (rowFn needle haystack needle.length j).2).toNat ≤ j := by omega
  have h3 := rowFn_le_lev needle haystack needle.length (le_refl _) j hj _ hle
  rw [List.take_length] at h2 h3
  exact ⟨hle, le_antisymm h3 h2⟩

theorem rowFn_nonneg (needle haystack : List α) (j : Nat) (hj : j ≤ haystack.length) :
    0 ≤ (rowFn needle haystack needle.length j).1 := by
  rw [(rowFn_eq_lev needle haystack j hj).2]
  exact Int.natCast_nonneg _

theorem length_substr (haystack : List α) (s e : Nat) (he : e ≤ haystack.length) :
    (substr haystack s e).length = e - s := by
  simp [substr, List.length_drop, List.length_take, Nat.min_eq_left he]

theorem substr_isInfix (haystack : List α) (s e : Nat) : substr haystack s e <:+: haystack :=
  List.IsInfix.trans (List.drop_suffix _ _).isInfix (List.take_prefix _ _).isInfix

theorem isInfix_eq_substr (haystack t : List α) (h : t <:+: haystack) :
    ∃ s e, s ≤ e ∧ e ≤ haystack.length ∧ t = substr haystack s e := by
  obtain ⟨a, b, rfl⟩ := h
  refine ⟨a.length, a.length + t.length, by omega, by simp, ?_⟩
  unfold substr
  rw [List.append_assoc, List.take_append, List.drop_left, List.take_left]

/-! ## The claims -/

/-- C3. For every needle, every haystack and every column `j ≤ haystack.length`,
`getEditDistances needle haystack` returns a row whose cell `j` exists and whose distance
is the minimum, over `s ≤ j`, of the Levenshtein distance between the needle and the
haystack substring from `s` to `j`: it is a lower bound of all of them and equals one. -/
theorem getEditDistances_cell_is_min_lev (needle haystack : List α) :
    ∃ row, getEditDistances needle haystack = some row ∧
      ∀ j, j ≤ haystack.length → ∃ c, row[j]? = some c ∧
        (∀ s, s ≤ j → c.1 ≤ (lev needle (substr haystack s j) : Int)) ∧
        (∃ s, s ≤ j ∧ c.1 = (lev needle (substr haystack s j) : Int)) := by
  refine ⟨_, getEditDistances_eq needle haystack, ?_⟩
  intro j hj
  refine ⟨_, map_range_getElem? _ _ _ (by omega), ?_, ?_⟩
  · intro s hs
    have := rowFn_le_lev needle haystack needle.length (le_refl _) j hj s hs
    rwa [List.take_length] at this
  · exact ⟨_, (rowFn_eq_lev needle haystack j hj).1, (rowFn_eq_lev needle haystack j hj).2⟩

theorem mem_getMatches (needle haystack : List α) (r : Match) :
    r ∈ (minIndices (fun i => (rowFn needle haystack needle.length i).1)
        haystack.length).map (matchAt needle haystack)
      ↔ ∃ i, i ≤ haystack.length ∧
          (rowFn needle haystack needle.length i).1
            = minUpTo (fun i => (rowFn needle haystack needle.length i).1) haystack.length ∧
          r = matchAt needle haystack i := by
  simp only [List.mem_map, mem_minIndices]
  constructor
  · rintro ⟨i, ⟨h1, h2⟩, h3⟩
    exact ⟨i, h1, h2, h3.symm⟩
  · rintro ⟨i, h1, h2, h3⟩
    exact ⟨i, ⟨h1, h2⟩, h3.symm⟩

/-- C1. For every needle and haystack, `getMatches needle haystack` returns a list all of
whose records carry one and the same distance `d`, and `d` is the minimum of the
Levenshtein distance between the needle and the contiguous substrings of the haystack
(the empty one included): a lower bound of all of them, attained by one. -/
theorem getMatches_distance_is_min_lev (needle haystack : List α) :
    ∃ rs, getMatches needle haystack = some rs ∧ ∃ d : Nat,
      (∀ r, r ∈ rs → r.distance = (d : Int)) ∧
      (∀ t, t <:+: haystack → d ≤ lev needle t) ∧
      (∃ t, t <:+: haystack ∧ d = lev needle t) := by
  refine ⟨_, getMatches_eq needle haystack, ?_⟩
  obtain ⟨i0, hi0, hmin⟩ :=
    minUpTo_attained (fun i => (rowFn needle haystack needle.length i).1) haystack.length
  obtain ⟨_, he⟩ := rowFn_eq_lev needle haystack i0 hi0
  refine ⟨lev needle (substr haystack
    ((i0 : Int) - (needle.length : Int) - (rowFn needle haystack needle.length i0).2).toNat i0),
    ?_, ?_, ⟨_, substr_isInfix haystack _ i0, rfl⟩⟩
  · intro r hr
    obtain ⟨i, _, h2, h3⟩ := (mem_getMatches needle haystack r).mp hr
    rw [h3, ← he, hmin]
    exact h2
  · intro t ht
    obtain ⟨s, e, hse, hen, rfl⟩ := isInfix_eq_substr haystack t ht
    have h1 := rowFn_le_lev needle haystack needle.length (le_refl _) e hen s hse
    have h2 := minUpTo_le (fun i => (rowFn needle haystack needle.length i).1)
      haystack.length e hen
    rw [List.take_length] at h1
    have h3 : minUpTo (fun i => (rowFn needle haystack needle.length i).1) haystack.length
        = (rowFn needle haystack needle.length i0).1 := hmin.symm
    have h4 : minUpTo (fun i => (rowFn needle haystack needle.length i).1) haystack.length
        ≤ (rowFn needle haystack needle.length e).1 := h2
    omega

/-- C2. Round trip: for every needle and haystack, `getMatches needle haystack` returns a
list, and for each of its records the haystack substring from `max 0 start` to `end` has
Levenshtein distance to the needle equal to the record's distance. -/
theorem getMatches_roundtrip (needle haystack : List α) :
    ∃ rs, getMatches needle haystack = some rs ∧
      ∀ r, r ∈ rs →
        (lev needle (substr haystack (max 0 r.start).toNat r.stop.toNat) : Int)
          = r.distance := by
  refine ⟨_, getMatches_eq needle haystack, ?_⟩
  intro r hr
  obtain ⟨i, hi, _, h3⟩ := (mem_getMatches needle haystack r).mp hr
  obtain ⟨_, he⟩ := rowFn_eq_lev needle haystack i hi
  subst h3
  simp only [matchAt, Int.toNat_ofNat]
  rw [he]
  congr 3
  omega

/-! ## Exact occurrences -/

theorem lev_self (xs : List α) : lev xs xs = 0 := by
  induction xs with
  | nil => simp [lev]
  | cons x xs ih => rw [lev_cons_cons, ih]; simp

theorem eq_of_lev_eq_zero (xs ys : List α) (h : lev xs ys = 0) : xs = ys := by
  induction xs generalizing ys with
  | nil =>
    rw [lev_nil_left] at h
    exact (List.length_eq_zero.mp h).symm
  | cons x xs ih =>
    cases ys with
    | nil =>
      rw [lev_nil_right] at h
      simp at h
    | cons y ys =>
      rw [lev_cons_cons] at h
      have h3 : lev xs ys + (if x = y then 0 else 1) = 0 := by omega
      by_cases hxy : x = y
      · rw [if_pos hxy] at h3
        rw [hxy, ih ys (by omega)]
      · rw [if_neg hxy] at h3
        omega

/-- A cell of distance `0` has offset `0`. -/
theorem rowFn_zero_offset (needle haystack : List α) (i : Nat) (hi : i ≤ needle.length) :
    ∀ j, j ≤ haystack.length → (rowFn needle haystack i j).1 = 0 →
      (rowFn needle haystack i j).2 = 0 := by
  induction i with
  | zero => intro j _ _; rfl
  | succ i ihi =>
    have hi2 : i < needle.length := hi
    intro j hj h0
    cases j with
    | zero => rfl
    | succ j =>
      have hj2 : j < haystack.length := hj
      have hA := (rowFn_start needle haystack i (by omega) j (by omega)).2
      have hB := (rowFn_start needle haystack i (by omega) (j + 1) hj).2
      have hE := (rowFn_start needle haystack (i + 1) hi j (by omega)).2
      have hc := costAt_eq needle haystack i j hi2 hj2
      rw [rowFn_succ_succ] at h0 ⊢
      rcases cellOf_cases (costAt needle haystack i j) (rowFn needle haystack i j)
        (rowFn needle haystack i (j + 1)) (rowFn needle haystack (i + 1) j)
        with ⟨h1, _⟩ | ⟨h1, _⟩ | ⟨h1, h2⟩
      · omega
      · omega
      · rw [h2]
        apply ihi (by omega) j (by omega)
        split_ifs at hc <;> omega

/-- The final row has distance `0` at column `j` exactly when the needle occurs verbatim
in the haystack ending at `j`. -/
theorem rowFn_eq_zero_iff (needle haystack : List α) (j : Nat) (hj : j ≤ haystack.length) :
    (rowFn needle haystack needle.length j).1 = 0
      ↔ ∃ p, p + needle.length = j ∧ substr haystack p (p + needle.length) = needle := by
  constructor
  · intro h0
    obtain ⟨hle, he⟩ := rowFn_eq_lev needle haystack j hj
    rw [h0] at he
    generalize ((j : Int) - (needle.length : Int)
      - (rowFn needle haystack needle.length j).2).toNat = st at hle he
    have heq := eq_of_lev_eq_zero needle (substr haystack st j) (by omega)
    have hlen := congrArg List.length heq
    rw [length_substr haystack _ j hj] at hlen
    have e : st + needle.length = j := by omega
    exact ⟨st, e, by rw [e]; exact heq.symm⟩
  · rintro ⟨p, hp, hocc⟩
    subst hp
    have h1 := rowFn_le_lev needle haystack needle.length (le_refl _) _ hj p (by omega)
    have h2 := rowFn_nonneg needle haystack _ hj
    rw [List.take_length, hocc, lev_self] at h1
    omega

theorem matchAt_of_zero (needle haystack : List α) (p : Nat)
    (hp : p + needle.length ≤ haystack.length)
    (h0 : (rowFn needle haystack needle.length (p + needle.length)).1 = 0) :
    matchAt needle haystack (p + needle.length)
      = ⟨0, (p : Int), ((p + needle.length : Nat) : Int)⟩ := by
  have h2 := rowFn_zero_offset needle haystack needle.length (le_refl _) _ hp h0
  simp only [matchAt, h0, h2, Match.mk.injEq, true_and, and_true]
  omega

theorem minIndices_pairwise (d : Nat → Int) (n : Nat) :
    (minIndices d n).Pairwise (fun a b => a < b) :=
  List.Pairwise.sublist (List.filter_sublist _) (List.pairwise_lt_range _)

theorem matches_pairwise (needle haystack : List α) (d : Nat → Int) (n : Nat) :
    ((minIndices d n).map (matchAt needle haystack)).Pairwise
      (fun a b => a.stop < b.stop) := by
  rw [List.pairwise_map]
  refine List.Pairwise.imp ?_ (minIndices_pairwise d n)
  intro a b hab
  simp only [matchAt]
  omega

theorem matches_nodup (needle haystack : List α) (d : Nat → Int) (n : Nat) :
    ((minIndices d n).map (matchAt needle haystack)).Nodup := by
  refine List.Pairwise.imp ?_ (matches_pairwise needle haystack d n)
  intro a b hab he
  rw [he] at hab
  exact lt_irrefl _ hab

/-- C4. Exact occurrences: `getMatches needle haystack` returns a list that contains the
record `{distance: 0, start: p, end: p + m}` for every position `p` at which the needle
(of length `m`) occurs verbatim in the haystack; when there is at least one occurrence, the
list has no duplicates and its records are exactly these, one for each occurrence; and
`getMatches s s` contains `{distance: 0, start: 0, end: length s}`. -/
theorem getMatches_exact_occurrences (needle haystack : List α) :
    ∃ rs, getMatches needle haystack = some rs ∧
      (∀ p, p + needle.length ≤ haystack.length →
        substr haystack p (p + needle.length) = needle →
        (⟨0, (p : Int), ((p + needle.length : Nat) : Int)⟩ : Match) ∈ rs) ∧
      ((∃ p, p + needle.length ≤ haystack.length ∧
            substr haystack p (p + needle.length) = needle) →
        rs.Nodup ∧
        ∀ r, r ∈ rs ↔ ∃ p, p + needle.length ≤ haystack.length ∧
          substr haystack p (p + needle.length) = needle ∧
          r = ⟨0, (p : Int), ((p + needle.length : Nat) : Int)⟩) ∧
      (haystack = needle → (⟨0, 0, (needle.length : Int)⟩ : Match) ∈ rs) := by
  refine ⟨_, getMatches_eq needle haystack, ?_⟩
  have hzero : ∀ p, p + needle.length ≤ haystack.length →
      substr haystack p (p + needle.length) = needle →
      minUpTo (fun i => (rowFn needle haystack needle.length i).1) haystack.length = 0 := by
    intro p hp hocc
    have h0 := (rowFn_eq_zero_iff needle haystack _ hp).mpr ⟨p, rfl, hocc⟩
    have h1 := minUpTo_le (fun i => (rowFn needle haystack needle.length i).1)
      haystack.length _ hp
    obtain ⟨i, hi, he⟩ := minUpTo_attained
      (fun i => (rowFn needle haystack needle.length i).1) haystack.length
    have h2 := rowFn_nonneg needle haystack i hi
    have h3 : minUpTo (fun i => (rowFn needle haystack needle.length i).1) haystack.length
        ≤ (rowFn needle haystack needle.length (p + needle.length)).1 := h1
    have h4 : (rowFn needle haystack needle.length i).1
        = minUpTo (fun i => (rowFn needle haystack needle.length i).1) haystack.length := he
    omega
  have hmem : ∀ p, p + needle.length ≤ haystack.length →
      substr haystack p (p + needle.length) = needle →
      (⟨0, (p : Int), ((p + needle.length : Nat) : Int)⟩ : Match)
        ∈ (minIndices (fun i => (rowFn needle haystack needle.length i).1)
            haystack.length).map (matchAt needle haystack) := by
    intro p hp hocc
    have h0 := (rowFn_eq_zero_iff needle haystack _ hp).mpr ⟨p, rfl, hocc⟩
    rw [mem_getMatches]
    exact ⟨p + needle.length, hp, by rw [h0, hzero p hp hocc],
      (matchAt_of_zero needle haystack p hp h0).symm⟩
  refine ⟨hmem, ?_, ?_⟩
  · rintro ⟨p0, hp0, hocc0⟩
    refine ⟨matches_nodup needle haystack _ _, ?_⟩
    intro r
    constructor
    · intro hr
      obtain ⟨i, hi, h2, h3⟩ := (mem_getMatches needle haystack r).mp hr
      rw [hzero p0 hp0 hocc0] at h2
      obtain ⟨p, hp, hocc⟩ := (rowFn_eq_zero_iff needle haystack i hi).mp h2
      subst hp
      exact ⟨p, hi, hocc, by rw [h3, matchAt_of_zero needle haystack p hi h2]⟩
    · rintro ⟨p, hp, hocc, rfl⟩
      exact hmem p hp hocc
  · intro h
    have := hmem 0 (by rw [h]; omega) (by
      rw [h]
      simp [substr])
    simpa using this

/-! ## The scan of the final row -/

theorem eq_minUpTo_iff (d : Nat → Int) (n i : Nat) (hi : i ≤ n) :
    d i = minUpTo d n ↔ ∀ k, k ≤ n → d i ≤ d k := by
  constructor
  · intro h k hk
    rw [h]
    exact minUpTo_le d n k hk
  · intro h
    obtain ⟨i0, hi0, he⟩ := minUpTo_attained d n
    have h1 := minUpTo_le d n i hi
    have h2 := h i0 hi0
    omega

theorem row_getElem?_iff (needle haystack : List α) (k : Nat) (c : Cell) :
    ((List.range (haystack.length + 1)).map (rowFn needle haystack needle.length))[k]? = some c
      ↔ k ≤ haystack.length ∧ c = rowFn needle haystack needle.length k := by
  rcases Nat.lt_or_ge k (haystack.length + 1) with h | h
  · rw [map_range_getElem? _ _ _ h]
    simp only [Option.some.injEq]
    constructor
    · intro e; exact ⟨by omega, e.symm⟩
    · intro e; exact e.2.symm
  · rw [List.getElem?_eq_none (by simp; omega)]
    simp only [false_iff, not_and, reduceCtorEq]
    intro h2
    omega

theorem row_min_iff (needle haystack : List α) (i : Nat) (hi : i ≤ haystack.length) :
    (∀ (k : Nat) (c' : Cell), ((List.range (haystack.length + 1)).map
          (rowFn needle haystack needle.length))[k]? = some c' →
        (rowFn needle haystack needle.length i).1 ≤ c'.1)
      ↔ (rowFn needle haystack needle.length i).1
          = minUpTo (fun i => (rowFn needle haystack needle.length i).1) haystack.length := by
  rw [eq_minUpTo_iff (fun i => (rowFn needle haystack needle.length i).1) _ i hi]
  constructor
  · intro h k hk
    exact h k _ ((row_getElem?_iff needle haystack k _).mpr ⟨hk, rfl⟩)
  · intro h k c' hc
    obtain ⟨hk, rfl⟩ := (row_getElem?_iff needle haystack k c').mp hc
    exact h k hk

/-- C5. With `row = getEditDistances needle haystack`, a record is in
`getMatches needle haystack` if and only if it is `{distance: row[i].distance,
start: i - m - row[i].offset, end: i}` for an index `i ≤ n` at which the distance is minimal
over the whole row; and each such index contributes exactly one record (the record occurs
once in the list). -/
theorem getMatches_records_iff (needle haystack : List α) :
    ∃ row rs, getEditDistances needle haystack = some row ∧
      getMatches needle haystack = some rs ∧
      (∀ r, r ∈ rs ↔ ∃ i c, i ≤ haystack.length ∧ row[i]? = some c ∧
          (∀ (k : Nat) (c' : Cell), row[k]? = some c' → c.1 ≤ c'.1) ∧
          r = ⟨c.1, (i : Int) - (needle.length : Int) - c.2, (i : Int)⟩) ∧
      (∀ i c, i ≤ haystack.length → row[i]? = some c →
          (∀ (k : Nat) (c' : Cell), row[k]? = some c' → c.1 ≤ c'.1) →
          rs.count ⟨c.1, (i : Int) - (needle.length : Int) - c.2, (i : Int)⟩ = 1) := by
  refine ⟨_, _, getEditDistances_eq needle haystack, getMatches_eq needle haystack, ?_, ?_⟩
  · intro r
    rw [mem_getMatches]
    constructor
    · rintro ⟨i, hi, hmin, rfl⟩
      exact ⟨i, _, hi, (row_getElem?_iff needle haystack i _).mpr ⟨hi, rfl⟩,
        (row_min_iff needle haystack i hi).mpr hmin, rfl⟩
    · rintro ⟨i, c, hi, hc, hmin, rfl⟩
      obtain ⟨_, rfl⟩ := (row_getElem?_iff needle haystack i c).mp hc
      exact ⟨i, hi, (row_min_iff needle haystack i hi).mp hmin, rfl⟩
  · intro i c hi hc hmin
    obtain ⟨_, rfl⟩ := (row_getElem?_iff needle haystack i c).mp hc
    apply List.count_eq_one_of_mem (matches_nodup needle haystack _ _)
    rw [mem_getMatches]
    exact ⟨i, hi, (row_min_iff needle haystack i hi).mp hmin, rfl⟩

/-! ## Empty needle, empty haystack -/

theorem minUpTo_const (n : Nat) : minUpTo (fun _ => (0 : Int)) n = 0 := by
  induction n with
  | zero => rfl
  | succ n ih => simp [minUpTo, ih]

theorem minIndices_const (n : Nat) : minIndices (fun _ => (0 : Int)) n = List.range (n + 1) := by
  simp [minIndices, minUpTo_const]

/-- C6. Empty needle: `getEditDistances [] haystack` is `n + 1` cells all equal to `(0, 0)`,
and `getMatches [] haystack` is the list of the `n + 1` records
`{distance: 0, start: i, end: i}` for `i = 0..n` in that order. -/
theorem empty_needle (haystack : List α) :
    getEditDistances ([] : List α) haystack
        = some (List.replicate (haystack.length + 1) ((0 : Int), (0 : Int))) ∧
      getMatches ([] : List α) haystack
        = some ((List.range (haystack.length + 1)).map
            (fun (i : Nat) => (⟨0, (i : Int), (i : Int)⟩ : Match))) ∧
      ((List.range (haystack.length + 1)).map
            (fun (i : Nat) => (⟨0, (i : Int), (i : Int)⟩ : Match))).length = haystack.length + 1 := by
  refine ⟨rfl, ?_, by simp⟩
  rw [getMatches_eq]
  simp only [List.length_nil, rowFn_zero, minIndices_const]
  congr 1

theorem rowFn_col_zero (needle haystack : List α) (i : Nat) :
    rowFn needle haystack i 0 = ((i : Int), 0) := by
  cases i with
  | zero => rfl
  | succ i => rw [rowFn_succ_zero]; simp

/-- C7. Empty haystack: `getEditDistances needle []` is the single-cell row `[(m, 0)]` and
`getMatches needle []` is the single record `{distance: m, start: -m, end: 0}`; for the
empty needle this is `{distance: 0, start: 0, end: 0}`. -/
theorem empty_haystack (needle : List α) :
    getEditDistances needle ([] : List α) = some [((needle.length : Int), (0 : Int))] ∧
      getMatches needle ([] : List α)
        = some [⟨(needle.length : Int), -(needle.length : Int), 0⟩] ∧
      getMatches ([] : List α) ([] : List α) = some [⟨0, 0, 0⟩] := by
  refine ⟨?_, ?_, rfl⟩
  · rw [getEditDistances_eq]
    simp [List.range_succ, rowFn_col_zero]
  · rw [getMatches_eq]
    simp [minIndices, minUpTo, matchAt, rowFn_col_zero, List.range_succ, List.filter_cons]

/-! ## Shape of the result list -/

/-- C8. `getMatches` never returns an empty list: for every needle and haystack it returns
a list with at least one record. -/
theorem getMatches_nonempty (needle haystack : List α) :
    ∃ rs, getMatches needle haystack = some rs ∧ rs ≠ [] := by
  refine ⟨_, getMatches_eq needle haystack, ?_⟩
  obtain ⟨i, hi, he⟩ := minUpTo_attained
    (fun i => (rowFn needle haystack needle.length i).1) haystack.length
  intro h
  have : matchAt needle haystack i ∈ (minIndices
      (fun i => (rowFn needle haystack needle.length i).1) haystack.length).map
      (matchAt needle haystack) :=
    (mem_getMatches needle haystack _).mpr ⟨i, hi, he, rfl⟩
  rw [h] at this
  exact List.not_mem_nil _ this

/-- C9. The `end` values of the records of `getMatches needle haystack` are strictly
increasing along the list; hence no two records share an `end`, and no two share a
`(start, end)` pair. -/
theorem getMatches_end_strictly_increasing (needle haystack : List α) :
    ∃ rs, getMatches needle haystack = some rs ∧
      rs.Pairwise (fun a b => a.stop < b.stop) ∧
      (rs.map (fun r => r.stop)).Nodup ∧
      (rs.map (fun r => (r.start, r.stop))).Nodup := by
  refine ⟨_, getMatches_eq needle haystack, matches_pairwise needle haystack _ _, ?_, ?_⟩
  · rw [List.Nodup, List.pairwise_map]
    refine List.Pairwise.imp ?_ (matches_pairwise needle haystack _ _)
    intro a b hab
    exact ne_of_lt hab
  · rw [List.Nodup, List.pairwise_map]
    refine List.Pairwise.imp ?_ (matches_pairwise needle haystack _ _)
    intro a b hab he
    have := (Prod.mk.inj he).2
    omega

/-- C10. Every record `{distance, start, end}` of `getMatches needle haystack` satisfies
`start ≤ end`, `0 ≤ end ≤ n` and `0 ≤ distance`, where `n` is the haystack's length. -/
theorem getMatches_bounds (needle haystack : List α) :
    ∃ rs, getMatches needle haystack = some rs ∧
      ∀ r, r ∈ rs →
        r.start ≤ r.stop ∧ 0 ≤ r.stop ∧ r.stop ≤ (haystack.length : Int) ∧ 0 ≤ r.distance := by
  refine ⟨_, getMatches_eq needle haystack, ?_⟩
  intro r hr
  obtain ⟨i, hi, _, rfl⟩ := (mem_getMatches needle haystack r).mp hr
  have h1 := (rowFn_start needle haystack needle.length (le_refl _) i hi).1
  have h2 := rowFn_nonneg needle haystack i hi
  simp only [matchAt]
  refine ⟨by omega, by omega, by omega, h2⟩

/-! ## The examples of the specification, evaluated -/

theorem example_cat_in_a_cat_sat :
    getMatches "cat".toList "a cat sat".toList = some [⟨0, 2, 5⟩] := by
  decide

theorem example_cat_cap :
    getMatches "cat".toList "cap".toList = some [⟨1, 0, 2⟩, ⟨1, 0, 3⟩] := by
  decide

theorem example_empty_needle :
    getMatches "".toList "abc".toList = some [⟨0, 0, 0⟩, ⟨0, 1, 1⟩, ⟨0, 2, 2⟩, ⟨0, 3, 3⟩] := by
  decide

theorem example_empty_haystack :
    getMatches "cat".toList "".toList = some [⟨3, -3, 0⟩] := by
  decide

/-! ## Shape of the row -/

/-- C14. For every needle and every haystack of length `n`, `getEditDistances` returns a
row of exactly `n + 1` cells, whatever the needle's length. -/
theorem getEditDistances_length (needle haystack : List α) :
    ∃ row, getEditDistances needle haystack = some row ∧
      row.length = haystack.length + 1 := by
  refine ⟨_, getEditDistances_eq needle haystack, ?_⟩
  simp

/-- C15. For every needle of length `m` and every haystack, cell `0` of the row returned by
`getEditDistances` is `(distance = m, offset = 0)`. -/
theorem getEditDistances_cell_zero (needle haystack : List α) :
    ∃ row, getEditDistances needle haystack = some row ∧
      row[0]? = some ((needle.length : Int), (0 : Int)) := by
  refine ⟨_, getEditDistances_eq needle haystack, ?_⟩
  rw [map_range_getElem? _ _ _ (by omega), rowFn_col_zero]

/-! ## Totality and bounds of the indexed reads -/

/-- C18. `getEditDistances` and `getMatches` return a result for every pair of strings (no
indexed read is out of bounds): at the start of each outer iteration `i ≤ m` the previous
row `row1` exists and has exactly `n + 1` cells, so `row1[j]` and `row1[j+1]` exist for
`j < n`; in the inner loop, after `j ≤ n` iterations `row2` has `j + 1` cells, so `row2[j]`
exists when cell `j + 1` is computed; and `matches[0]` exists in `getMatches`. -/
theorem total_and_reads_in_bounds (needle haystack : List α) :
    (∃ row, getEditDistances needle haystack = some row) ∧
    (∃ rs, getMatches needle haystack = some rs) ∧
    (∀ i, i ≤ needle.length → ∃ row1,
      (List.range i).foldlM (outerBody needle haystack)
          (List.replicate (haystack.length + 1) ((0 : Int), (0 : Int))) = some row1 ∧
        row1.length = haystack.length + 1 ∧
        (∀ j, j < haystack.length → (∃ a, row1[j]? = some a) ∧ ∃ b, row1[j + 1]? = some b) ∧
        (∀ x, needle[i]? = some x → ∀ j, j ≤ haystack.length → ∃ row2,
          (List.range j).foldlM (innerBody x haystack row1) [(((i : Int) + 1), (0 : Int))]
              = some row2 ∧
            row2.length = j + 1 ∧ ∃ c, row2[j]? = some c)) ∧
    (∃ row c0, getEditDistances needle haystack = some row ∧ row[0]? = some c0) := by
  refine ⟨⟨_, getEditDistances_eq needle haystack⟩, ⟨_, getMatches_eq needle haystack⟩, ?_,
    ⟨_, _, getEditDistances_eq needle haystack, map_range_getElem? _ _ _ (by omega)⟩⟩
  intro i hi
  refine ⟨_, outer_loop needle haystack i hi, by simp, ?_, ?_⟩
  · intro j hj
    exact ⟨⟨_, map_range_getElem? _ _ _ (by omega)⟩, ⟨_, map_range_getElem? _ _ _ (by omega)⟩⟩
  · intro x hx j hj
    refine ⟨_, inner_loop needle haystack i x hx (rowFn needle haystack i) _
      (fun k hk => map_range_getElem? _ _ _ (by omega)) j hj, by simp, ?_⟩
    exact ⟨_, map_range_getElem? _ _ _ (by omega)⟩

/-! ## Prefix stability -/

theorem costAt_append (needle h x : List α) (i j : Nat) (hj : j < h.length) :
    costAt needle (h ++ x) i j = costAt needle h i j := by
  simp only [costAt, List.getElem?_append_left hj]

theorem rowFn_append (needle h x : List α) (i : Nat) :
    ∀ j, j ≤ h.length → rowFn needle (h ++ x) i j = rowFn needle h i j := by
  induction i with
  | zero => intro j _; rfl
  | succ i ihi =>
    intro j
    induction j with
    | zero => intro _; rfl
    | succ j ihj =>
      intro hj
      rw [rowFn_succ_succ, rowFn_succ_succ, costAt_append needle h x i j (by omega),
        ihi j (by omega), ihi (j + 1) hj, ihj (by omega)]

/-- C19. Prefix stability: for every needle and strings `h`, `x`, the first
`length h + 1` cells of `getEditDistances needle (h ++ x)` are exactly the row
`getEditDistances needle h` (distances and offsets); hence the distance reported by
`getMatches needle (h ++ x)` is never larger than the one reported by
`getMatches needle h`. -/
theorem prefix_stability (needle h x : List α) :
    ∃ row row', getEditDistances needle h = some row ∧
      getEditDistances needle (h ++ x) = some row' ∧
      row'.take (h.length + 1) = row ∧
      ∃ rs rs', getMatches needle h = some rs ∧ getMatches needle (h ++ x) = some rs' ∧
        ∀ r, r ∈ rs → ∀ r', r' ∈ rs' → r'.distance ≤ r.distance := by
  refine ⟨_, _, getEditDistances_eq needle h, getEditDistances_eq needle (h ++ x), ?_,
    _, _, getMatches_eq needle h, getMatches_eq needle (h ++ x), ?_⟩
  · rw [← List.map_take, List.take_range, List.length_append,
      Nat.min_eq_left (by omega)]
    apply List.map_congr_left
    intro j hj
    exact rowFn_append needle h x needle.length j (by have := List.mem_range.mp hj; omega)
  · intro r hr r' hr'
    obtain ⟨i, hi, _, rfl⟩ := (mem_getMatches needle h r).mp hr
    obtain ⟨i', _, hmin, rfl⟩ := (mem_getMatches needle (h ++ x) r').mp hr'
    have h1 := minUpTo_le (fun i => (rowFn needle (h ++ x) needle.length i).1)
      (h ++ x).length i (by rw [List.length_append]; omega)
    have h2 := rowFn_append needle h x needle.length i hi
    simp only [matchAt]
    rw [hmin, ← h2]
    exact h1

/-! ## Bounds on the offset -/

theorem rowFn_offset_le (needle haystack : List α) (i : Nat) :
    ∀ j, (rowFn needle haystack i j).2 ≤ (j : Int) := by
  induction i with
  | zero => intro j; rw [rowFn_zero]; exact Int.natCast_nonneg _
  | succ i ihi =>
    intro j
    induction j with
    | zero => rw [rowFn_succ_zero]; exact le_refl _
    | succ j ihj =>
      rw [rowFn_succ_succ]
      have hA := ihi j
      have hB := ihi (j + 1)
      rcases cellOf_cases (costAt needle haystack i j) (rowFn needle haystack i j)
        (rowFn needle haystack i (j + 1)) (rowFn needle haystack (i + 1) j)
        with ⟨_, h2⟩ | ⟨_, h2⟩ | ⟨_, h2⟩ <;> rw [h2] <;> push_cast <;> omega

/-- C20. Lower bound on `start`: every cell `i` of the row returned by `getEditDistances`
has `offset ≤ i`, every record of `getMatches needle haystack` has `start ≥ -m`, and the
bound is attained: `getMatches needle []` is the single record with `start = -m`. -/
theorem start_lower_bound (needle haystack : List α) :
    ∃ row rs, getEditDistances needle haystack = some row ∧
      getMatches needle haystack = some rs ∧
      (∀ (i : Nat) (c : Cell), row[i]? = some c → c.2 ≤ (i : Int)) ∧
      (∀ r, r ∈ rs → -(needle.length : Int) ≤ r.start) ∧
      getMatches needle ([] : List α)
        = some [⟨(needle.length : Int), -(needle.length : Int), 0⟩] := by
  refine ⟨_, _, getEditDistances_eq needle haystack, getMatches_eq needle haystack, ?_, ?_, ?_⟩
  · intro i c hc
    obtain ⟨_, rfl⟩ := (row_getElem?_iff needle haystack i c).mp hc
    exact rowFn_offset_le needle haystack needle.length i
  · intro r hr
    obtain ⟨i, _, _, rfl⟩ := (mem_getMatches needle haystack r).mp hr
    have := rowFn_offset_le needle haystack needle.length i
    simp only [matchAt]
    omega
  · rw [getMatches_eq]
    simp [minIndices, minUpTo, matchAt, rowFn_col_zero, List.range_succ, List.filter_cons]

/-! ## Overlap of the reported spans -/

theorem costAt_nonneg (needle haystack : List α) (i j : Nat) :
    0 ≤ costAt needle haystack i j := by
  unfold costAt
  split_ifs <;> decide

/-- The offset of a cell never exceeds its distance. -/
theorem rowFn_offset_le_dist (needle haystack : List α) (i : Nat) :
    ∀ j, (rowFn needle haystack i j).2 ≤ (rowFn needle haystack i j).1 := by
  induction i with
  | zero => intro j; rw [rowFn_zero]
  | succ i ihi =>
    intro j
    induction j with
    | zero => rw [rowFn_succ_zero]; simp only []; omega
    | succ j ihj =>
      rw [rowFn_succ_succ]
      have hA := ihi j
      have hB := ihi (j + 1)
      have hc := costAt_nonneg needle haystack i j
      rcases cellOf_cases (costAt needle haystack i j) (rowFn needle haystack i j)
        (rowFn needle haystack i (j + 1)) (rowFn needle haystack (i + 1) j)
        with ⟨h1, h2⟩ | ⟨h1, h2⟩ | ⟨h1, h2⟩ <;> rw [h1, h2] <;> omega

/-- C11, counterexample. For needle `aa` and haystack `aaa`, `getMatches` returns the spans
`[0, 2)` and `[1, 3)`, which overlap: the first ends after the second starts. -/
theorem spans_overlap_counterexample :
    ∃ rs, getMatches "aa".toList "aaa".toList = some rs ∧
      ¬ rs.Pairwise (fun a b => a.stop ≤ b.start) :=
  ⟨[⟨0, 0, 2⟩, ⟨0, 1, 3⟩], by decide, by decide⟩

/-- C11, amended. The spans returned by `getMatches` are ordered by their ends and overlap
by less than `m + distance` characters: any two records taken in list order satisfy
`end1 < end2` and `end1 < start2 + m + distance2` (for the empty needle this is
`end1 < start2`). -/
theorem spans_overlap_bound (needle haystack : List α) :
    ∃ rs, getMatches needle haystack = some rs ∧
      rs.Pairwise (fun a b =>
        a.stop < b.stop ∧ a.stop < b.start + (needle.length : Int) + b.distance) := by
  refine ⟨_, getMatches_eq needle haystack, ?_⟩
  rw [List.pairwise_map]
  refine List.Pairwise.imp ?_ (minIndices_pairwise _ _)
  intro a b hab
  have := rowFn_offset_le_dist needle haystack needle.length b
  simp only [matchAt]
  omega

/-- C12, the code at the failing input. For needle `a` and haystack `b` (equal lengths)
`getMatches` returns a record with `start = -1`. -/
theorem negative_start_example :
    getMatches "a".toList "b".toList = some [⟨1, -1, 0⟩, ⟨1, 1, 1⟩] := by
  decide

/-! ## Single substitution -/

theorem lev_le_one_of_differ_at (xs : List α) :
    ∀ (ys : List α) (k : Nat), xs.length = ys.length →
      (∀ l, l ≠ k → xs[l]? = ys[l]?) → lev xs ys ≤ 1 := by
  induction xs with
  | nil =>
    intro ys k hlen _
    rw [lev_nil_left]
    simp only [List.length_nil] at hlen
    omega
  | cons a xs ih =>
    intro ys k hlen hsame
    cases ys with
    | nil => simp at hlen
    | cons b ys =>
      rw [lev_cons_cons]
      have hlen2 : xs.length = ys.length := by simpa using hlen
      cases k with
      | zero =>
        have : xs = ys := by
          apply List.ext_getElem?
          intro l
          simpa using hsame (l + 1) (by omega)
        rw [this, lev_self]
        split_ifs <;> omega
      | succ k =>
        have hab : a = b := by simpa using hsame 0 (by omega)
        have := ih ys k hlen2 (fun l hl => by simpa using hsame (l + 1) (by omega))
        rw [if_pos hab]
        omega

/-- C13. Single substitution: when needle and haystack have the same length and differ in
exactly one position `k` (so the length is not zero), every record of
`getMatches needle haystack` has distance `1`. -/
theorem single_substitution (needle haystack : List α) (k : Nat)
    (hlen : needle.length = haystack.length) (_hk : k < needle.length)
    (hdiff : needle[k]? ≠ haystack[k]?)
    (hsame : ∀ l, l ≠ k → needle[l]? = haystack[l]?) :
    ∃ rs, getMatches needle haystack = some rs ∧ ∀ r, r ∈ rs → r.distance = 1 := by
  refine ⟨_, getMatches_eq needle haystack, ?_⟩
  intro r hr
  obtain ⟨i, hi, hmin, rfl⟩ := (mem_getMatches needle haystack r).mp hr
  have hup1 := minUpTo_le (fun i => (rowFn needle haystack needle.length i).1)
    haystack.length haystack.length (le_refl _)
  have hup2 := rowFn_le_lev needle haystack needle.length (le_refl _) haystack.length
    (le_refl _) 0 (Nat.zero_le _)
  have hsub : substr haystack 0 haystack.length = haystack := by simp [substr]
  rw [List.take_length, hsub] at hup2
  have hup3 := lev_le_one_of_differ_at needle haystack k hlen hsame
  have hnn := rowFn_nonneg needle haystack i hi
  have hne : (rowFn needle haystack needle.length i).1 ≠ 0 := by
    intro h0
    obtain ⟨p, hp, hocc⟩ := (rowFn_eq_zero_iff needle haystack i hi).mp h0
    have hp0 : p = 0 := by omega
    subst hp0
    rw [Nat.zero_add, hlen, hsub] at hocc
    exact hdiff (by rw [hocc])
  have hup1' : minUpTo (fun i => (rowFn needle haystack needle.length i).1) haystack.length
      ≤ (rowFn needle haystack needle.length haystack.length).1 := hup1
  simp only [matchAt]
  omega

/-- C13, witness: needle `cat`, haystack `cap`, differing at position `2`. -/
theorem single_substitution_witness :
    ∃ rs, getMatches "cat".toList "cap".toList = some rs ∧ ∀ r, r ∈ rs → r.distance = 1 :=
  single_substitution "cat".toList "cap".toList 2 (by decide) (by decide) (by decide)
    (fun l hl => match l, hl with
      | 0, _ => rfl
      | 1, _ => rfl
      | 2, h => absurd rfl h
      | _ + 3, _ => rfl)

/-! ## The tie-break order -/

/-- With the source's priority order the variant's inner body is the source's. -/
theorem innerBodyWith_sourcePrio (x : α) (haystack : List α) (row1 row2 : List Cell)
    (j : Nat) :
    innerBodyWith sourcePrio x haystack row1 row2 j = innerBody x haystack row1 row2 j := by
  unfold innerBodyWith innerBody
  cases haystack[j]? with
  | none => rfl
  | some y =>
    cases row1[j + 1]? with
    | none => rfl
    | some b =>
      cases row2[j]? with
      | none => rfl
      | some c =>
        cases row1[j]? with
        | none => rfl
        | some a =>
          simp only [Option.bind_eq_bind, Option.some_bind, Option.pure_def, sourcePrio,
            pickOp, opCost]
          split_ifs <;> simp [opOffset]

/-- With the source's priority order the variant is `getEditDistances`. -/
theorem getEditDistancesWith_sourcePrio (needle haystack : List α) :
    getEditDistancesWith sourcePrio needle haystack = getEditDistances needle haystack := by
  unfold getEditDistancesWith getEditDistances
  congr 1
  funext row1 i
  unfold outerBodyWith outerBody
  cases needle[i]? with
  | none => rfl
  | some x =>
    simp only [Option.bind_eq_bind, Option.some_bind]
    congr 1
    funext row2 j
    exact innerBodyWith_sourcePrio x haystack row1 row2 j

theorem innerBodyWith_eq (prio : List Op) (x : α) (haystack : List α) (row1 row2 : List Cell)
    (j : Nat) (y : α) (a b c : Cell) (hy : haystack[j]? = some y) (ha : row1[j]? = some a)
    (hb : row1[j + 1]? = some b) (hc : row2[j]? = some c) :
    innerBodyWith prio x haystack row1 row2 j
      = some (row2 ++ [cellOfWith prio (if x ≠ y then 1 else 0) a b c]) := by
  simp only [innerBodyWith, hy, ha, hb, hc, Option.bind_eq_bind, Option.some_bind, cellOfWith,
    Option.pure_def]

theorem inner_loop_with (prio : List Op) (needle haystack : List α) (i : Nat) (x : α)
    (hx : needle[i]? = some x) (prev : Nat → Cell) (row1 : List Cell)
    (hrow : ∀ j, j ≤ haystack.length → row1[j]? = some (prev j))
    (k : Nat) (hk : k ≤ haystack.length) :
    (List.range k).foldlM (innerBodyWith prio x haystack row1) [(((i : Int) + 1), (0 : Int))]
      = some ((List.range (k + 1)).map
          (nextRowFnWith prio (costAt needle haystack i) i prev)) := by
  induction k with
  | zero => rfl
  | succ k ih =>
    have hk2 : k < haystack.length := hk
    have hr : List.range (k + 1) = List.range k ++ [k] := List.range_succ _
    have hr2 : List.range (k + 1 + 1) = List.range (k + 1) ++ [k + 1] := List.range_succ _
    rw [hr, List.foldlM_append, ih (Nat.le_of_lt hk2)]
    simp only [Option.bind_eq_bind, Option.some_bind, List.foldlM_cons, List.foldlM_nil]
    have hy : haystack[k]? = some haystack[k] := List.getElem?_eq_getElem hk2
    rw [innerBodyWith_eq prio x haystack _ _ k haystack[k] (prev k) (prev (k + 1))
      (nextRowFnWith prio (costAt needle haystack i) i prev k) hy
      (hrow k (by omega)) (hrow (k + 1) (by omega)) (map_range_getElem? _ _ _ (by omega))]
    simp only [Option.some_bind, Option.pure_def]
    rw [hr2, List.map_append]
    simp only [List.map_cons, List.map_nil, nextRowFnWith, costAt, hx, hy]
    simp

theorem outer_loop_with (prio : List Op) (needle haystack : List α) (k : Nat)
    (hk : k ≤ needle.length) :
    (List.range k).foldlM (outerBodyWith prio needle haystack)
        (List.replicate (haystack.length + 1) ((0 : Int), (0 : Int)))
      = some ((List.range (haystack.length + 1)).map (rowFnWith prio needle haystack k)) := by
  induction k with
  | zero =>
    simp only [List.range_zero, List.foldlM_nil, Option.pure_def, rowFnWith]
    congr 1
    apply List.ext_getElem <;> simp
  | succ k ih =>
    have hk2 : k < needle.length := hk
    have hr : List.range (k + 1) = List.range k ++ [k] := List.range_succ _
    rw [hr, List.foldlM_append, ih (Nat.le_of_lt hk2)]
    simp only [Option.bind_eq_bind, Option.some_bind, List.foldlM_cons, List.foldlM_nil]
    have hx : needle[k]? = some needle[k] := List.getElem?_eq_getElem hk2
    simp only [outerBodyWith, hx, Option.bind_eq_bind, Option.some_bind]
    rw [inner_loop_with prio needle haystack k needle[k] hx (rowFnWith prio needle haystack k) _
      (fun j hj => map_range_getElem? _ _ _ (by omega)) haystack.length (Nat.le_refl _)]
    simp [rowFnWith]

theorem getEditDistancesWith_eq (prio : List Op) (needle haystack : List α) :
    getEditDistancesWith prio needle haystack
      = some ((List.range (haystack.length + 1)).map
          (rowFnWith prio needle haystack needle.length)) :=
  outer_loop_with prio needle haystack needle.length (Nat.le_refl _)

/-- The variant's distances are those of the source, cell by cell. -/
theorem rowFnWith_fst (prio : List Op) (needle haystack : List α) (i : Nat) :
    ∀ j, (rowFnWith prio needle haystack i j).1 = (rowFn needle haystack i j).1 := by
  induction i with
  | zero => intro j; rfl
  | succ i ihi =>
    intro j
    induction j with
    | zero => rfl
    | succ j ihj =>
      show (cellOfWith prio _ _ _ _).1 = _
      rw [rowFn_succ_succ, cellOf_fst]
      show min _ (min _ _) = _
      rw [ihi j, ihi (j + 1)]
      have e : (nextRowFnWith prio (costAt needle haystack i) i
          (rowFnWith prio needle haystack i) j).1 = (rowFn needle haystack (i + 1) j).1 := ihj
      rw [e]

/-- The result of the variant of `getMatches`, in closed form. -/
theorem getMatchesWith_eq (prio : List Op) (needle haystack : List α) :
    getMatchesWith prio needle haystack
      = some ((minIndices (fun i => (rowFn needle haystack needle.length i).1)
          haystack.length).map (fun i =>
            ({ distance := (rowFn needle haystack needle.length i).1
               start := (i : Int) - (needle.length : Int)
                 - (rowFnWith prio needle haystack needle.length i).2
               stop := (i : Int) } : Match))) := by
  have hrow : ∀ i, i ≤ haystack.length →
      ((List.range (haystack.length + 1)).map
          (rowFnWith prio needle haystack needle.length))[i]?
        = some (rowFnWith prio needle haystack needle.length i) :=
    fun i hi => map_range_getElem? _ _ _ (by omega)
  simp only [getMatchesWith, getEditDistancesWith_eq, Option.bind_eq_bind, Option.some_bind,
    hrow 0 (Nat.zero_le _), List.length_map, List.length_range, Nat.add_sub_cancel]
  rw [rowFnWith_fst, scan_loop _ (fun i => (rowFn needle haystack needle.length i).1)
    haystack.length (fun i hi => ⟨_, hrow i hi, rowFnWith_fst prio needle haystack _ i⟩)
    haystack.length (Nat.le_refl _)]
  simp only [Option.some_bind]
  apply mapM_some
  intro i hi
  have hi2 := (mem_minIndices.mp hi).1
  simp only [compileBody, hrow i hi2, Option.bind_eq_bind, Option.some_bind,
    Option.pure_def, rowFnWith_fst]

/-- C16. The tie-break order affects offsets only: for every priority order `prio` among
deletion, insertion and substitution, the variant `getEditDistancesWith prio` returns a row
with the same sequence of distances as `getEditDistances`, and `getMatchesWith prio`
reports the same distances and the same end positions, in the same order, as
`getMatches`. -/
theorem tie_break_affects_offsets_only (prio : List Op) (needle haystack : List α) :
    ∃ row row', getEditDistances needle haystack = some row ∧
      getEditDistancesWith prio needle haystack = some row' ∧
      row'.map (fun c => c.1) = row.map (fun c => c.1) ∧
      ∃ rs rs', getMatches needle haystack = some rs ∧
        getMatchesWith prio needle haystack = some rs' ∧
        rs'.map (fun r => r.distance) = rs.map (fun r => r.distance) ∧
        rs'.map (fun r => r.stop) = rs.map (fun r => r.stop) := by
  refine ⟨_, _, getEditDistances_eq needle haystack,
    getEditDistancesWith_eq prio needle haystack, ?_,
    _, _, getMatches_eq needle haystack, getMatchesWith_eq prio needle haystack, ?_, ?_⟩
  · simp only [List.map_map]
    apply List.map_congr_left
    intro j _
    exact rowFnWith_fst prio needle haystack needle.length j
  · simp only [List.map_map]
    apply List.map_congr_left
    intro j _
    rfl
  · simp only [List.map_map]
    apply List.map_congr_left
    intro j _
    rfl

/-- C17. The tie-break order is behaviour-affecting: for needle `a` and haystack `b` the
source reports `start = 1` for the record with `end = 1`, while the variant that gives
substitution priority over deletion reports `start = 0` for it; the distances and ends
are the same. -/
theorem tie_break_changes_start :
    getMatches "a".toList "b".toList = some [⟨1, -1, 0⟩, ⟨1, 1, 1⟩] ∧
    getMatchesWith [Op.sub, Op.del, Op.ins] "a".toList "b".toList
      = some [⟨1, -1, 0⟩, ⟨1, 0, 1⟩] := by
  decide

end FuzzySubstring

